import Mathlib

/-!
Verification of the MDP Playground toy-environment engine
(`mdp_playground/envs/rl_toy_env.py`).

The Python source is shallowly embedded below.  Machine floats are
modelled by exact rationals, Python lists by Lean lists, the `np.nan`
padding entries of the augmented state by `Option.none`, and the
engine's named numpy RNGs by explicit streams `ℕ → ℕ` threaded through a
position counter.  Sampler primitives that live in the external
`gym.spaces` extensions (not part of this repository's source tree) are
modelled from the specification and marked as such in their doc
comments.
-/

/-- Python list slice `l[a : b]` for non-negative indices. -/
def pySlice (l : List α) (a b : ℕ) : List α := (l.take b).drop a

/-- Python `range(a, b)` for `a ≤ b`. -/
def pyRange (a b : ℕ) : List ℕ := (List.range (b - a)).map (fun i => a + i)

/-! ## Dimension codec (`transform_multi_discrete_to_discrete` /
`transform_discrete_to_multi_discrete`, lines 1023-1033).

`np.arange(prod).reshape(maxes)` is a row-major tensor, so the flat
index of multi-index `v` is `Σ v_i · prod (maxes after i)`; `argwhere`
inverts that. -/

/-- Embeds `transform_multi_discrete_to_discrete(vector, vector_maxes)`:
row-major flat index of a multi-discrete tuple (rightmost varies fastest). -/
def transform_multi_discrete_to_discrete : List ℕ → List ℕ → ℕ
  | v :: vs, _ :: ms => v * ms.prod + transform_multi_discrete_to_discrete vs ms
  | _, _ => 0

/-- Embeds `transform_discrete_to_multi_discrete(scalar, vector_maxes)`:
multi-index of a row-major flat index (rightmost varies fastest). -/
def transform_discrete_to_multi_discrete : ℕ → List ℕ → List ℕ
  | k, _ :: ms => k / ms.prod :: transform_discrete_to_multi_discrete (k % ms.prod) ms
  | _, [] => []

/-! ## Terminal states (`init_terminal_states`, lines 434-441). -/

/-- Embeds `num_terminal_states = int(terminal_state_density *
relevant_state_space_size)`, forced to `1` when that value is `0`
(lines 435-438).  Python `int` truncates; the density is non-negative,
so this is the floor. -/
def num_terminal_states (density : ℚ) (S : ℕ) : ℕ :=
  let n := (⌊density * S⌋).toNat
  if n = 0 then 1 else n

/-- Embeds `is_terminal_state = [S - 1 - i for i in range(num_terminal_states)]`
(line 439): the list of terminal states. -/
def terminal_state_list (S numTerm : ℕ) : List ℕ :=
  (List.range numTerm).map (fun i => S - 1 - i)

/-- Embeds the terminal test `lambda s: s in is_terminal_state` (line 441). -/
def is_terminal_state (S numTerm s : ℕ) : Bool :=
  (terminal_state_list S numTerm).contains s

/-! ## Discrete transition table (`init_transition_function`, lines 485-499).

The sampled part of the table (the without-replacement row samples, or
the cell-by-cell uniform draws) is a parameter `sampledRows`; after
sampling, the source overwrites `T[s][a] = s` for every terminal `s`
(`for s in range(S - num_terminal_states, S)`) and every action. -/

/-- Embeds the final relevant-dimensions transition table of
`init_transition_function`: the sampled rows with every terminal row
`s` overwritten by the constant row `s` (lines 495-499). -/
def init_transition_function_rel (S A numTerm : ℕ) (sampledRows : List (List ℕ)) :
    List (List ℕ) :=
  (List.range S).map (fun s =>
    if S - numTerm ≤ s then List.replicate A s else sampledRows.getD s [])

/-- Table lookup `T[s][a]`. -/
def lookupT (table : List (List ℕ)) (s a : ℕ) : ℕ := (table.getD s []).getD a 0

/-! ## Rewardable-sequence generation (`init_reward_function`, lines 531-585). -/

/-- Embeds `num_possible_sequences = (S_nt) ** sequence_length` (line 534),
the `repeats_in_sequences` branch count. -/
def num_possible_sequences (S_nt L : ℕ) : ℕ := S_nt ^ L

/-- Embeds `permutations = list(range(S_nt + 1 - len_, S_nt + 1))` (line 551). -/
def permutations_list (S_nt L : ℕ) : List ℕ := pyRange (S_nt + 1 - L) (S_nt + 1)

/-- Embeds `num_possible_permutations = np.prod(permutations)` (line 553),
the no-repeats branch count. -/
def num_possible_permutations (S_nt L : ℕ) : ℕ := (permutations_list S_nt L).prod

/-- Embeds `num_specific_sequences = int(reward_density * num_possible)`
(lines 535 and 554).  Python `int` truncates; for the non-negative
values arising here this is the floor. -/
def num_specific_sequences (density : ℚ) (numPossible : ℕ) : ℕ :=
  (⌊density * numPossible⌋).toNat

/-- The rounding function named by the specification's words
("round(reward_density · N)"): round half up to the nearest integer.
Kept separate from the source embedding for comparison. -/
def round_spec (x : ℚ) : ℤ := ⌊x + 1 / 2⌋

/-- Embeds the base-`S_nt` little-endian decoding loop of the
`repeats_in_sequences` branch (lines 540-543): repeatedly append
`n % S_nt` and divide, `L` times. -/
def decode_base (S_nt : ℕ) : ℕ → ℕ → List ℕ
  | 0, _ => []
  | L + 1, n => n % S_nt :: decode_base S_nt L (n / S_nt)

/-- Embeds the factorial-number-system decoding loop of the no-repeats
branch (lines 566-573): walk the reversed `permutations` list, indexing
into and deleting from the remaining-digit list. -/
def decode_perm_digits : List ℕ → List ℕ → ℕ → List ℕ
  | digits, j :: js, n =>
      digits.getD (n % j) 0 :: decode_perm_digits (digits.eraseIdx (n % j)) js (n / j)
  | _, [], _ => []

/-- Decoding of one selected number into a length-`L` permutation of the
`S_nt` non-terminal states, as in the no-repeats branch: the remaining
digits start as `list(range(S_nt))` and the reversed `permutations`
factors go from largest to smallest. -/
def decode_permutation (S_nt L n : ℕ) : List ℕ :=
  decode_perm_digits (List.range S_nt) (permutations_list S_nt L).reverse n

/-- The list of rewardable sequences decoded from the selected sequence
numbers `sel`, per branch (lines 538-546 and 564-578). -/
def build_specific_sequences (repeats : Bool) (S_nt L : ℕ) (sel : List ℕ) :
    List (List ℕ) :=
  if repeats then sel.map (decode_base S_nt L) else sel.map (decode_permutation S_nt L)

/-- `specific_sequences` is a list indexed by sequence length minus one;
only the entry at index `sequence_length - 1` is populated (lines 536,
546, 558, 578). -/
def place_at_last (seqLen : ℕ) (seqs : List (List ℕ)) : List (List (List ℕ)) :=
  (List.range seqLen).map (fun i => if i = seqLen - 1 then seqs else [])

/-! ## Reward computation (`reward_function`, lines 753-794).

Augmented-state entries are `Option ℕ`: `none` models the `np.nan`
padding written by `reset`, which compares unequal to every state, and
`some s` a real relevant state.  A slice of the augmented state matches
a rewardable sequence `p : List ℕ` exactly when it equals `p.map some`. -/

/-- Dense-reward accumulation loop (lines 775-782): for each `j` in
`1..sequence_length`, if the length-`j` slice of the augmented state
ending `delay` steps before the present occurs in
`possible_remaining_sequences[j-1]`, add
`count · reward_scale · j / sequence_length`. -/
def dense_reward_on (delay seqLen : ℕ) (scale : ℚ) (aug : List (Option ℕ))
    (prs : List (List (List ℕ))) : ℚ :=
  let L := seqLen + delay + 1
  ((List.range seqLen).map (fun j0 =>
    let j := j0 + 1
    let c := pySlice aug (L - j - delay) (L - delay)
    let lst := prs.getD (j - 1) []
    if lst.any (fun p => c == p.map some) then
      ((lst.countP (fun p => c == p.map some) : ℚ)) * scale * j / seqLen
    else 0)).sum

/-- Rebuild of `possible_remaining_sequences` after a step (lines
784-790): for each `j` in `0..sequence_length-1`, collect
`seq[:j+1]` for every rewardable sequence `seq` whose length-`j` prefix
equals the corresponding slice of the augmented state. -/
def rebuild_possible (delay seqLen : ℕ) (specific : List (List (List ℕ)))
    (aug : List (Option ℕ)) : List (List (List ℕ)) :=
  let L := seqLen + delay + 1
  (List.range seqLen).map (fun j =>
    specific.flatten.filterMap (fun seq =>
      if pySlice aug (L - j - delay) (L - delay) == (seq.take j).map some then
        some (seq.take (j + 1))
      else none))

/-- Initialisation of `possible_remaining_sequences` in `reset` (lines
989-995): entry `0` holds the length-1 prefix of every rewardable
sequence, all other entries are empty. -/
def dense_prs_init (seqLen : ℕ) (specific : List (List (List ℕ))) :
    List (List (List ℕ)) :=
  (List.range seqLen).map (fun j =>
    if j = 0 then specific.flatten.map (fun seq => seq.take 1) else [])

/-- Embeds the discrete branch of `reward_function` (lines 765-794),
before reward noise and `reward_shift` are added: the sparse branch
tests the slice `augmented_state[1 : L - delay]` for membership in
`specific_sequences[sequence_length - 1]`; the dense branch runs the
prefix-count accumulation. -/
def reward_function_discrete (make_denser : Bool) (delay seqLen : ℕ) (scale : ℚ)
    (specific : List (List (List ℕ))) (prs : List (List (List ℕ)))
    (aug : List (Option ℕ)) : ℚ :=
  let L := seqLen + delay + 1
  if !make_denser then
    if (specific.getD (seqLen - 1) []).any
        (fun seq => pySlice aug 1 (L - delay) == seq.map some) then scale
    else 0
  else dense_reward_on delay seqLen scale aug prs

/-- The runtime state of the dense-reward machine: the augmented state
and `possible_remaining_sequences`. -/
structure DenseState where
  aug : List (Option ℕ)
  prs : List (List (List ℕ))
deriving Repr, DecidableEq

/-- Dense-reward state after `reset` with initial relevant state `s0`:
the augmented state is `nan`-padded up to length `L - 1` and ends with
`s0` (lines 949-950, 986-995). -/
def dense_reset (delay seqLen : ℕ) (specific : List (List (List ℕ))) (s0 : ℕ) :
    DenseState :=
  { aug := List.replicate (seqLen + delay) none ++ [some s0]
    prs := dense_prs_init seqLen specific }

/-- One step of the dense-reward machine: the transition appends the
next relevant state to the augmented state (lines 699-700), the reward
is computed against the previous `possible_remaining_sequences`, then
those are rebuilt (lines 774-794). -/
def dense_step (delay seqLen : ℕ) (scale : ℚ) (specific : List (List (List ℕ)))
    (st : DenseState) (next : ℕ) : DenseState × ℚ :=
  let aug := st.aug.drop 1 ++ [some next]
  let r := dense_reward_on delay seqLen scale aug st.prs
  (⟨aug, rebuild_possible delay seqLen specific aug⟩, r)

/-- Rewards collected while driving the dense machine through the
relevant states `nexts` from a reset at `s0`. -/
def drive_dense (delay seqLen : ℕ) (scale : ℚ) (specific : List (List (List ℕ)))
    (s0 : ℕ) (nexts : List ℕ) : List ℚ :=
  (nexts.foldl
    (fun acc n =>
      let out := dense_step delay seqLen scale specific acc.1 n
      (out.1, acc.2 ++ [out.2]))
    (dense_reset delay seqLen specific s0, [])).2

/-! ## RNG suite and seed derivation (`__init__`, lines 206-221).

A numpy RNG seeded with `seed` is modelled as the deterministic stream
`gen seed : ℕ → ℕ` read at successive positions; `gen` abstracts the
Mersenne-twister generator, which is external to the repository. -/

/-- An owned RNG: its stream and the current read position. -/
structure Rng where
  stream : ℕ → ℕ
  pos : ℕ

/-- One `randint` draw: read the stream at the current position and
advance. -/
def drawRng (r : Rng) : ℕ × Rng := (r.stream r.pos, { r with pos := r.pos + 1 })

/-- The named sub-seeds derived in `__init__` (lines 211-217). -/
structure SeedDict where
  relevant_state_space : ℕ
  relevant_action_space : ℕ
  irrelevant_state_space : ℕ
  irrelevant_action_space : ℕ
  state_space : ℕ
  action_space : ℕ
  image_representations : ℕ
deriving Repr, DecidableEq

/-- Embeds the successive `self.np_random.randint(sys.maxsize)` draws of
`__init__` (lines 211-217), in source order. -/
def mkSeedDict (r : Rng) : SeedDict × Rng :=
  let d1 := drawRng r
  let d2 := drawRng d1.2
  let d3 := drawRng d2.2
  let d4 := drawRng d3.2
  let d5 := drawRng d4.2
  let d6 := drawRng d5.2
  let d7 := drawRng d6.2
  (⟨d1.1, d2.1, d3.1, d4.1, d5.1, d6.1, d7.1⟩, d7.2)

/-- Modelled from the spec: `DiscreteExtended.sample()` (uniform draw
from `Discrete(n)`;  the `gym.spaces` extensions are not in this
repository's source tree).  One stream value is consumed and reduced
modulo `n`. -/
def sample_uniform (n : ℕ) (r : Rng) : ℕ × Rng :=
  let d := drawRng r
  (d.1 % n, d.2)

/-- Modelled from the spec: `sample(size=k, replace=False)` (`k`
distinct draws without replacement from `Discrete(n)`; the `gym.spaces`
extensions are not in this repository's source tree).  Each draw picks
an index into the list of remaining values and removes it. -/
def sample_without_replacement (remaining : List ℕ) : ℕ → Rng → List ℕ × Rng
  | 0, r => ([], r)
  | k + 1, r =>
      let d := drawRng r
      let idx := d.1 % remaining.length
      let rest := sample_without_replacement (remaining.eraseIdx idx) k d.2
      (remaining.getD idx 0 :: rest.1, rest.2)

/-- A row of `A` independent uniform draws from `Discrete(S)` (the
non-completely-connected branch of `init_transition_function`,
lines 492-494). -/
def sample_row (S : ℕ) : ℕ → Rng → List ℕ × Rng
  | 0, r => ([], r)
  | a + 1, r =>
      let d := sample_uniform S r
      let rest := sample_row S a d.2
      (d.1 :: rest.1, rest.2)

/-- The `S` sampled rows of the relevant transition table, threaded
through the relevant-state-space RNG in state order (lines 488-494). -/
def sample_rows (mk : Rng → List ℕ × Rng) : ℕ → Rng → List (List ℕ) × Rng
  | 0, r => ([], r)
  | s + 1, r =>
      let d := mk r
      let rest := sample_rows mk s d.2
      (d.1 :: rest.1, rest.2)

/-- The configuration of a simple discrete environment (scalar
state/action space sizes, no irrelevant dimensions, no image
representations, no noise). -/
structure EngCfg where
  S : ℕ
  A : ℕ
  reward_density : ℚ
  terminal_state_density : ℚ
  make_denser : Bool
  completely_connected : Bool
  repeats_in_sequences : Bool
  delay : ℕ
  seqLen : ℕ
  reward_scale : ℚ
  reward_shift : ℚ
  term_state_reward : ℚ

/-- The tables built once at construction. -/
structure Engine where
  cfg : EngCfg
  numTerm : ℕ
  table : List (List ℕ)
  specific : List (List (List ℕ))

/-- The per-episode mutable state. -/
structure EngState where
  curr : ℕ
  aug : List (Option ℕ)
  prs : List (List (List ℕ))
  done : Bool
  total_transitions_episode : ℕ
deriving Repr, DecidableEq

/-- Embeds `reset` for the simple discrete environment (lines 936-998):
draw the initial relevant state uniformly over the non-terminal states
(the initial distribution built by `init_init_state_dist` places zero
mass on terminal states), pad the augmented state with `nan`, zero the
counters, and initialise `possible_remaining_sequences` when
`make_denser`. -/
def resetEngine (eng : Engine) (r : Rng) : EngState × Rng :=
  let nt := eng.cfg.S - eng.numTerm
  let d := drawRng r
  let s0 := d.1 % nt
  ({ curr := s0
     aug := List.replicate (eng.cfg.seqLen + eng.cfg.delay) none ++ [some s0]
     prs := if eng.cfg.make_denser then dense_prs_init eng.cfg.seqLen eng.specific else []
     done := false
     total_transitions_episode := 0 }, d.2)

/-- Embeds construction (`__init__`, lines 206-223 and 416-423): derive
the sub-seeds from the env RNG in source order, build the terminal set,
the transition table (completely-connected rows or cell draws, then the
terminal overwrite), the rewardable sequences (selection numbers drawn
from the env RNG without replacement, then decoded), and perform the
initial `reset` from the env RNG. -/
def constructEngine (gen : ℕ → ℕ → ℕ) (cfg : EngCfg) (seed : ℕ) :
    Engine × EngState :=
  let envRng0 : Rng := ⟨gen seed, 0⟩
  let sd := mkSeedDict envRng0
  let envRng1 := sd.2
  let numTerm := num_terminal_states cfg.terminal_state_density cfg.S
  let relStateRng : Rng := ⟨gen sd.1.relevant_state_space, 0⟩
  let rows :=
    if cfg.completely_connected then
      sample_rows (sample_without_replacement (List.range cfg.S) cfg.A) cfg.S relStateRng
    else
      sample_rows (sample_row cfg.S cfg.A) cfg.S relStateRng
  let table := init_transition_function_rel cfg.S cfg.A numTerm rows.1
  let S_nt := cfg.S - numTerm
  let numPossible :=
    if cfg.repeats_in_sequences then num_possible_sequences S_nt cfg.seqLen
    else num_possible_permutations S_nt cfg.seqLen
  let numSpecific := num_specific_sequences cfg.reward_density numPossible
  let sel := sample_without_replacement (List.range numPossible) numSpecific envRng1
  let specific :=
    place_at_last cfg.seqLen
      (build_specific_sequences cfg.repeats_in_sequences S_nt cfg.seqLen sel.1)
  let eng : Engine := ⟨cfg, numTerm, table, specific⟩
  let st := resetEngine eng sel.2
  (eng, st.1)

/-- Terminal test on the last augmented-state entry
(`is_terminal_state(augmented_state[-1])`, line 866); the `nan` padding
is never terminal. -/
def is_terminal_opt (S numTerm : ℕ) : Option ℕ → Bool
  | some s => is_terminal_state S numTerm s
  | none => false

/-- Embeds `step` for the simple discrete environment (lines 847-870,
629-641 without noise, 699-701): look up `P[s][a]`, shift the augmented
state, compute the reward (plus `reward_shift`; reward noise draws `0`
here), test terminality of the new last relevant state, and add the
terminal bonus.  No error is raised when the episode had already
terminated. -/
def stepEngine (eng : Engine) (st : EngState) (a : ℕ) : EngState × ℕ × ℚ × Bool :=
  let ns := lookupT eng.table st.curr a
  let aug := st.aug.drop 1 ++ [some ns]
  let r0 := reward_function_discrete eng.cfg.make_denser eng.cfg.delay eng.cfg.seqLen
      eng.cfg.reward_scale eng.specific st.prs aug
  let r1 := r0 + eng.cfg.reward_shift
  let prs :=
    if eng.cfg.make_denser then rebuild_possible eng.cfg.delay eng.cfg.seqLen eng.specific aug
    else st.prs
  let done := is_terminal_opt eng.cfg.S eng.numTerm (aug.getLastD none)
  let r2 := if done then r1 + eng.cfg.term_state_reward * eng.cfg.reward_scale else r1
  ({ curr := ns, aug := aug, prs := prs, done := done
     total_transitions_episode := st.total_transitions_episode + 1 }, ns, r2, done)

/-- The trajectory (observation, reward, done triples) produced by a
freshly constructed engine on a finite action sequence. -/
def runTrajectory (gen : ℕ → ℕ → ℕ) (cfg : EngCfg) (seed : ℕ) (acts : List ℕ) :
    List (ℕ × ℚ × Bool) :=
  let c := constructEngine gen cfg seed
  (acts.foldl
    (fun acc a =>
      let out := stepEngine c.1 acc.1 a
      (out.1, acc.2 ++ [out.2]))
    (c.2, [])).2

/-! ## Continuous transition function (`transition_function`, lines 658-701).

Continuous states are vectors of rationals.  `state_derivatives` is a
list of `dynamics_order + 1` vectors, entry `0` being the current state
(which the source keeps aliased with `curr_state`, so the added
transition noise lands in both). -/

/-- Continuous-environment configuration. -/
structure ContCfg where
  dim : ℕ
  order : ℕ
  inertia : ℚ
  time_unit : ℚ
  action_space_max : ℚ
  state_space_max : ℚ

/-- `Box(-m, m).contains`: every component within the closed bounds. -/
def box_contains (m : ℚ) (v : List ℚ) : Bool :=
  v.all (fun x => decide (-m ≤ x ∧ x ≤ m))

/-- Componentwise vector sum. -/
def add_vec (v w : List ℚ) : List ℚ := List.zipWith (· + ·) v w

/-- Scalar multiple of a vector. -/
def scale_vec (c : ℚ) (v : List ℚ) : List ℚ := v.map (fun x => c * x)

/-- `np.clip(x, -m, m)` componentwise. -/
def clip_vec (m : ℚ) (v : List ℚ) : List ℚ :=
  v.map (fun x => min (max x (-m)) m)

/-- Embeds the continuous branch of `transition_function` (lines
658-701).  If the action is inside the action box, the highest
derivative is set to `action / inertia` and the truncated Taylor update
runs, lower orders reading pre-update higher orders (lines 669-676);
otherwise the step keeps `next_state = state` with a warning (lines
678-680).  Then the drawn transition noise is added to the state only
(lines 682-684), and an out-of-bounds next state is clipped with all
higher derivatives zeroed (lines 686-692).  Returns the new
`state_derivatives` and the next state. -/
def transition_function_cont (cfg : ContCfg) (derivs : List (List ℚ))
    (state action : List ℚ) (noise : ℚ) : List (List ℚ) × List ℚ :=
  let afterDyn :=
    if box_contains cfg.action_space_max action then
      let d := derivs.set cfg.order (action.map (fun x => x / cfg.inertia))
      let d2 := (List.range (cfg.order + 1)).map (fun i =>
        (List.range (cfg.order - i)).foldl
          (fun acc j =>
            add_vec acc
              (scale_vec (cfg.time_unit ^ (j + 1) / (Nat.factorial (j + 1) : ℚ))
                (d.getD (i + j + 1) [])))
          (d.getD i []))
      (d2, d2.getD 0 [])
    else (derivs, state)
  let next := afterDyn.2.map (fun x => x + noise)
  let d3 := afterDyn.1.set 0 next
  if box_contains cfg.state_space_max next then (d3, next)
  else
    let clipped := clip_vec cfg.state_space_max next
    let zero := List.replicate cfg.dim (0 : ℚ)
    ((List.replicate (cfg.order + 1) zero).set 0 clipped, clipped)

/-! ## Concrete instances used by witnesses and counterexamples. -/

/-- A concrete generator stream (stands in for the seeded Mersenne
twister): every draw is `0`. -/
def genEx : ℕ → ℕ → ℕ := fun _ _ => 0

/-- A concrete simple discrete configuration: 2 states, 2 actions,
completely connected, terminal density 1/2, reward density 0. -/
def cfgEx : EngCfg :=
  { S := 2, A := 2, reward_density := 0, terminal_state_density := 1 / 2
    make_denser := false, completely_connected := true
    repeats_in_sequences := true, delay := 0, seqLen := 1
    reward_scale := 1, reward_shift := 0, term_state_reward := 0 }

/-- A concrete `specific_sequences` value with the single rewardable
triple `[0, 1, 2]` at sequence length 3. -/
def specificTripleEx : List (List (List ℕ)) := [[], [], [[0, 1, 2]]]

/-- A concrete continuous configuration: 1 dimension, first-order
dynamics, unit inertia and time unit, action box `[-1, 1]`, state box
`[-5, 5]`. -/
def contCfgEx : ContCfg :=
  { dim := 1, order := 1, inertia := 1, time_unit := 1
    action_space_max := 1, state_space_max := 5 }

/-- The engine that `constructEngine genEx cfgEx 0` produces (checked by
`constructEngine_cfgEx_eval` below). -/
def engEx : Engine :=
  { cfg := cfgEx, numTerm := 1, table := [[0, 1], [1, 1]], specific := [[]] }

/-- The post-construction state of `constructEngine genEx cfgEx 0`
(checked by `constructEngine_cfgEx_eval` below). -/
def stEx : EngState :=
  { curr := 0, aug := [none, some 0], prs := [], done := false
    total_transitions_episode := 0 }

/-- A runtime state of `engEx` that has terminated: the terminal state
`1` was entered at the previous step (it is the state reached by
`stepEngine engEx stEx 1`). -/
def stDoneEx : EngState :=
  { curr := 1, aug := [some 0, some 1], prs := [], done := true
    total_transitions_episode := 1 }

/-! # Theorems -/

/-! ## Helper lemmas -/

theorem is_terminal_state_iff (S n s : ℕ) (hn : n ≤ S) :
    is_terminal_state S n s = true ↔ S - n ≤ s ∧ s < S := by
  unfold is_terminal_state terminal_state_list
  simp only [List.contains_eq_any_beq, List.any_eq_true, List.mem_map, List.mem_range,
    beq_iff_eq]
  constructor
  · rintro ⟨x, ⟨i, hi, rfl⟩, rfl⟩
    omega
  · rintro ⟨h1, h2⟩
    exact ⟨s, ⟨S - 1 - s, by omega, by omega⟩, rfl⟩

theorem lookupT_terminal_row (S A numTerm : ℕ) (rows : List (List ℕ)) (s a : ℕ)
    (hs1 : S - numTerm ≤ s) (hs2 : s < S) (ha : a < A) :
    lookupT (init_transition_function_rel S A numTerm rows) s a = s := by
  have hlen : s < ((List.range S).map (fun s =>
      if S - numTerm ≤ s then List.replicate A s else rows.getD s [])).length := by
    simpa using hs2
  unfold lookupT init_transition_function_rel
  rw [List.getD_eq_getElem _ _ hlen, List.getElem_map, List.getElem_range,
    if_pos hs1, List.getD_eq_getElem _ _ (by simpa using ha), List.getElem_replicate]

/-! ## C2: terminal states are absorbing -/

/-- C2: after construction of a discrete environment, for every terminal
state `s` and every action `a` the transition table satisfies
`P(s, a) = s`: the terminal rows written by `init_transition_function`
make terminal states absorbing under every action. -/
theorem c2_terminal_states_absorbing (S A numTerm : ℕ) (rows : List (List ℕ))
    (s a : ℕ) (hn : numTerm ≤ S)
    (hterm : is_terminal_state S numTerm s = true) (ha : a < A) :
    lookupT (init_transition_function_rel S A numTerm rows) s a = s := by
  obtain ⟨h1, h2⟩ := (is_terminal_state_iff S numTerm s hn).mp hterm
  exact lookupT_terminal_row S A numTerm rows s a h1 h2 ha

/-- Witness for C2 at a concrete instance. -/
theorem c2_terminal_states_absorbing_witness :
    (1 ≤ 3 ∧ is_terminal_state 3 1 2 = true ∧ 1 < 2) ∧
    lookupT (init_transition_function_rel 3 2 1 [[1, 0], [2, 2], [0, 0]]) 2 1 = 2 :=
  ⟨⟨by decide, by decide, by decide⟩,
    c2_terminal_states_absorbing 3 2 1 [[1, 0], [2, 2], [0, 0]] 2 1
      (by decide) (by decide) (by decide)⟩

theorem constructEngine_cfgEx_eval : constructEngine genEx cfgEx 0 = (engEx, stEx) := by
  have h1 : num_terminal_states ((2 : ℚ)⁻¹) 2 = 1 := by norm_num [num_terminal_states]
  have h2 : num_specific_sequences (0 : ℚ) 1 = 0 := by norm_num [num_specific_sequences]
  simp [constructEngine, cfgEx, genEx, engEx, stEx, h1, h2, mkSeedDict, drawRng,
    sample_rows, sample_without_replacement, resetEngine, init_transition_function_rel,
    num_possible_sequences, place_at_last, build_specific_sequences, dense_prs_init,
    List.range_succ]

/-! ## C3: completely-connected rows -/

/-- C3 counterexample: in the environment built by
`constructEngine genEx cfgEx 0` — a discrete environment constructed
with `completely_connected = true` — the row of the terminal state `1`
is `[1, 1]`, which is not a permutation of the relevant-state set
`{0, 1}`: the terminal-state overwrite of `init_transition_function`
destroys the permutation property of terminal rows. -/
theorem c3_counterexample :
    cfgEx.completely_connected = true ∧
    ¬ ((constructEngine genEx cfgEx 0).1.table.getD 1 []).Perm
        (List.range cfgEx.S) := by
  refine ⟨rfl, ?_⟩
  rw [constructEngine_cfgEx_eval]
  decide

/-- C3 as amended: in a discrete environment constructed with
`completely_connected = true`, every row of the transition table
belonging to a *non-terminal* state is a permutation of the
relevant-state set (the without-replacement row sample is a permutation
when the action- and state-space sizes are equal, and the terminal
overwrite does not touch non-terminal rows). -/
theorem c3_nonterminal_rows_are_permutations (S A numTerm : ℕ)
    (rows : List (List ℕ)) (s : ℕ) (hs : s < S - numTerm)
    (hrow : (rows.getD s []).Perm (List.range S)) :
    ((init_transition_function_rel S A numTerm rows).getD s []).Perm
      (List.range S) := by
  have hsS : s < S := lt_of_lt_of_le hs (Nat.sub_le _ _)
  have hlen : s < ((List.range S).map (fun s =>
      if S - numTerm ≤ s then List.replicate A s else rows.getD s [])).length := by
    simpa using hsS
  unfold init_transition_function_rel
  rw [List.getD_eq_getElem _ _ hlen, List.getElem_map, List.getElem_range,
    if_neg (by omega)]
  exact hrow

/-- Witness for the amended C3 at a concrete instance. -/
theorem c3_nonterminal_rows_are_permutations_witness :
    (0 < 3 - 1 ∧ ([[0, 2, 1], [1, 2, 0], [2, 0, 1]].getD 0 []).Perm (List.range 3)) ∧
    ((init_transition_function_rel 3 3 1 [[0, 2, 1], [1, 2, 0], [2, 0, 1]]).getD 0 []).Perm
      (List.range 3) :=
  ⟨⟨by decide, by decide⟩,
    c3_nonterminal_rows_are_permutations 3 3 1 [[0, 2, 1], [1, 2, 0], [2, 0, 1]] 0
      (by decide) (by decide)⟩

/-! ## C10: number of terminal states -/

/-- C10: after construction of a discrete environment, the number of
terminal states is `int(terminal_state_density · S)` when that is
positive and `1` otherwise, so every discrete environment has at least
one terminal state; and the terminal states are exactly the
highest-numbered states. -/
theorem c10_terminal_state_count (density : ℚ) (S : ℕ)
    (h0 : 0 ≤ density) (h1 : density ≤ 1) (hS : 1 ≤ S) :
    (0 < (⌊density * S⌋).toNat →
      num_terminal_states density S = (⌊density * S⌋).toNat) ∧
    ((⌊density * S⌋).toNat = 0 → num_terminal_states density S = 1) ∧
    1 ≤ num_terminal_states density S ∧
    num_terminal_states density S ≤ S ∧
    (∀ s, is_terminal_state S (num_terminal_states density S) s = true ↔
      S - num_terminal_states density S ≤ s ∧ s < S) := by
  have hfloor : (⌊density * S⌋).toNat ≤ S := by
    have : density * S ≤ S := by
      calc density * S ≤ 1 * S := by
            apply mul_le_mul_of_nonneg_right h1 (by positivity)
        _ = S := one_mul _
    have h2 : ⌊density * S⌋ ≤ (S : ℤ) := by
      calc ⌊density * S⌋ ≤ ⌊(S : ℚ)⌋ := Int.floor_le_floor this
        _ = (S : ℤ) := Int.floor_natCast S
    omega
  have hle : num_terminal_states density S ≤ S := by
    simp only [num_terminal_states]
    split <;> omega
  refine ⟨?_, ?_, ?_, hle, ?_⟩
  · intro h
    simp only [num_terminal_states]
    split <;> omega
  · intro h
    simp only [num_terminal_states]
    split <;> omega
  · simp only [num_terminal_states]
    split <;> omega
  · intro s
    exact is_terminal_state_iff S (num_terminal_states density S) s hle

/-- Witness for C10 at a concrete instance (`density = 0` forces a
single terminal state). -/
theorem c10_terminal_state_count_witness :
    ((0 : ℚ) ≤ 0 ∧ (0 : ℚ) ≤ 1 ∧ 1 ≤ 6) ∧
    ((0 < (⌊(0 : ℚ) * (6 : ℕ)⌋).toNat →
      num_terminal_states 0 6 = (⌊(0 : ℚ) * (6 : ℕ)⌋).toNat) ∧
    ((⌊(0 : ℚ) * (6 : ℕ)⌋).toNat = 0 → num_terminal_states 0 6 = 1) ∧
    1 ≤ num_terminal_states 0 6 ∧
    num_terminal_states 0 6 ≤ 6 ∧
    (∀ s, is_terminal_state 6 (num_terminal_states 0 6) s = true ↔
      6 - num_terminal_states 0 6 ≤ s ∧ s < 6)) :=
  ⟨⟨le_refl 0, by norm_num, by norm_num⟩,
    c10_terminal_state_count 0 6 (le_refl 0) (by norm_num) (by norm_num)⟩

/-! ## C9: dimension codec round-trip -/

theorem encode_lt_prod {v m : List ℕ} (h : List.Forall₂ (· < ·) v m) :
    transform_multi_discrete_to_discrete v m < m.prod := by
  induction h with
  | nil => simp [transform_multi_discrete_to_discrete]
  | @cons a b v' m' hab _ ih =>
      unfold transform_multi_discrete_to_discrete
      rw [List.prod_cons]
      calc a * m'.prod + transform_multi_discrete_to_discrete v' m'
          < a * m'.prod + m'.prod := Nat.add_lt_add_left ih _
        _ = (a + 1) * m'.prod := by ring
        _ ≤ b * m'.prod := Nat.mul_le_mul_right _ hab

theorem decode_encode_id {v m : List ℕ} (h : List.Forall₂ (· < ·) v m) :
    transform_discrete_to_multi_discrete (transform_multi_discrete_to_discrete v m) m
      = v := by
  induction h with
  | nil => rfl
  | @cons a b v' m' hab hrest ih =>
      have he : transform_multi_discrete_to_discrete v' m' < m'.prod :=
        encode_lt_prod hrest
      have hP : 0 < m'.prod := by omega
      unfold transform_multi_discrete_to_discrete transform_discrete_to_multi_discrete
      congr 1
      · rw [Nat.mul_comm, Nat.mul_add_div hP, Nat.div_eq_of_lt he, Nat.add_zero]
      · rw [Nat.mul_comm, Nat.mul_add_mod, Nat.mod_eq_of_lt he]
        exact ih

theorem encode_decode_id {m : List ℕ} : ∀ {k : ℕ}, k < m.prod →
    transform_multi_discrete_to_discrete (transform_discrete_to_multi_discrete k m) m
      = k := by
  induction m with
  | nil =>
      intro k hk
      simp only [List.prod_nil, Nat.lt_one_iff] at hk
      subst hk
      rfl
  | cons b m' ih =>
      intro k hk
      rw [List.prod_cons] at hk
      have hP : 0 < m'.prod := by
        rcases Nat.eq_zero_or_pos m'.prod with h | h
        · rw [h, Nat.mul_zero] at hk; omega
        · exact h
      unfold transform_discrete_to_multi_discrete transform_multi_discrete_to_discrete
      rw [ih (Nat.mod_lt _ hP), Nat.mul_comm, Nat.div_add_mod]

/-- C9: the dimension codec is a bijection with the rightmost element
varying fastest: decoding the encoded flat index of any in-bounds
multi-discrete tuple returns the tuple, and encoding the decoded tuple
of any flat index below the product of the bounds returns the index. -/
theorem c9_codec_round_trip (v maxes : List ℕ) (k : ℕ)
    (hv : List.Forall₂ (· < ·) v maxes) (hk : k < maxes.prod) :
    transform_discrete_to_multi_discrete
        (transform_multi_discrete_to_discrete v maxes) maxes = v ∧
    transform_multi_discrete_to_discrete
        (transform_discrete_to_multi_discrete k maxes) maxes = k :=
  ⟨decode_encode_id hv, encode_decode_id hk⟩

/-- Witness for C9 at a concrete instance. -/
theorem c9_codec_round_trip_witness :
    (List.Forall₂ (· < ·) [1, 2] [2, 3] ∧ 5 < ([2, 3] : List ℕ).prod) ∧
    (transform_discrete_to_multi_discrete
        (transform_multi_discrete_to_discrete [1, 2] [2, 3]) [2, 3] = [1, 2] ∧
    transform_multi_discrete_to_discrete
        (transform_discrete_to_multi_discrete 5 [2, 3]) [2, 3] = 5) :=
  ⟨⟨List.Forall₂.cons (by decide) (List.Forall₂.cons (by decide) List.Forall₂.nil),
      by decide⟩,
    c9_codec_round_trip [1, 2] [2, 3] 5
      (List.Forall₂.cons (by decide) (List.Forall₂.cons (by decide) List.Forall₂.nil))
      (by decide)⟩

/-! ## C4: size of the rewardable-sequence set -/

theorem pyRange_cons (a b : ℕ) (h : a < b) : pyRange a b = a :: pyRange (a + 1) b := by
  unfold pyRange
  have hd : b - a = (b - (a + 1)) + 1 := by omega
  rw [hd, List.range_succ_eq_map, List.map_cons, List.map_map]
  congr 1
  apply List.map_congr_left
  intro x _
  simp only [Function.comp_apply, Nat.succ_eq_add_one]
  omega

theorem num_possible_permutations_eq_descFactorial (S_nt : ℕ) :
    ∀ L, L ≤ S_nt → num_possible_permutations S_nt L = Nat.descFactorial S_nt L := by
  intro L
  induction L with
  | zero =>
      intro _
      simp [num_possible_permutations, permutations_list, pyRange]
  | succ L ih =>
      intro hL
      unfold num_possible_permutations permutations_list
      rw [pyRange_cons _ _ (by omega), List.prod_cons]
      have e1 : S_nt + 1 - (L + 1) = S_nt - L := by omega
      have e2 : S_nt - L + 1 = S_nt + 1 - L := by omega
      rw [e1, e2, Nat.descFactorial_succ, ← ih (by omega)]
      rfl

/-- C4 counterexample: in the `repeats_in_sequences = true` branch with
6 non-terminal states, `sequence_length = 1` and
`reward_density = 1/4`, the source selects
`int(0.25 · 6) = 1` rewardable sequence, but the claim's
`round(reward_density · N)` is `2`: the code truncates where the claim
rounds. -/
theorem c4_counterexample :
    (build_specific_sequences true 6 1
      (List.range (num_specific_sequences (1 / 4) (num_possible_sequences 6 1)))).length
        = 1 ∧
    round_spec ((1 / 4 : ℚ) * (num_possible_sequences 6 1 : ℕ)) = 2 ∧ (1 : ℕ) ≠ 2 := by
  have h : num_specific_sequences (1 / 4) (num_possible_sequences 6 1) = 1 := by
    norm_num [num_specific_sequences, num_possible_sequences]
  refine ⟨?_, ?_, by decide⟩
  · rw [h]
    decide
  · norm_num [round_spec, num_possible_sequences]

/-- C4 as amended: after construction of a discrete environment, the
number of rewardable sequences equals `int(reward_density · N)` —
the floor, not the round — where `N = |S_nt| ^ sequence_length` with
repeats and `N = nPk` (the descending factorial) without repeats; the
source's product over `range(S_nt + 1 - k, S_nt + 1)` equals `nPk`. -/
theorem c4_reward_set_cardinality (repeats : Bool) (S_nt L : ℕ) (density : ℚ)
    (sel : List ℕ) (hL : L ≤ S_nt)
    (hsel : sel.length = num_specific_sequences density
      (if repeats then num_possible_sequences S_nt L
       else num_possible_permutations S_nt L)) :
    (build_specific_sequences repeats S_nt L sel).length =
      (⌊density * ((if repeats then S_nt ^ L else Nat.descFactorial S_nt L : ℕ) : ℚ)⌋).toNat := by
  have hlen : (build_specific_sequences repeats S_nt L sel).length = sel.length := by
    unfold build_specific_sequences
    split <;> rw [List.length_map]
  rw [hlen, hsel]
  unfold num_specific_sequences
  cases repeats with
  | true => rfl
  | false =>
      simp only [Bool.false_eq_true, if_false]
      rw [num_possible_permutations_eq_descFactorial S_nt L hL]

/-- Witness for the amended C4 at a concrete instance (no repeats,
3 non-terminal states, sequence length 2, density 1/2: the code keeps
`int(0.5 · 6) = 3` sequences). -/
theorem c4_reward_set_cardinality_witness :
    (2 ≤ 3 ∧ ([0, 1, 2] : List ℕ).length = num_specific_sequences (1 / 2)
      (if false then num_possible_sequences 3 2 else num_possible_permutations 3 2)) ∧
    (build_specific_sequences false 3 2 [0, 1, 2]).length =
      (⌊(1 / 2 : ℚ) * ((if false then 3 ^ 2 else Nat.descFactorial 3 2 : ℕ) : ℚ)⌋).toNat := by
  have hsel : ([0, 1, 2] : List ℕ).length = num_specific_sequences (1 / 2)
      (if false then num_possible_sequences 3 2 else num_possible_permutations 3 2) := by
    norm_num [num_specific_sequences, num_possible_permutations, permutations_list,
      pyRange, List.range_succ]
    decide
  exact ⟨⟨by decide, hsel⟩,
    c4_reward_set_cardinality false 3 2 (1 / 2) [0, 1, 2] (by decide) hsel⟩

/-! ## C1: sparse reward and the delay law -/

/-- C1: for a discrete environment with `make_denser = false`, the
reward computed by `reward_function` (before reward noise and
`reward_shift`) equals `reward_scale` exactly when the slice of the
augmented state from index `1` to `L - delay` — equivalently, the
`sequence_length` states ending `delay` steps before the present — is a
rewardable sequence, and `0` otherwise. -/
theorem c1_sparse_reward_delay_law (delay seqLen : ℕ) (scale : ℚ)
    (specific prs : List (List (List ℕ))) (aug : List (Option ℕ))
    (h : aug.length = delay + seqLen + 1) :
    reward_function_discrete false delay seqLen scale specific prs aug =
      if (aug.drop (aug.length - delay - seqLen)).take seqLen ∈
          (specific.getD (seqLen - 1) []).map (fun seq => seq.map some)
      then scale else 0 := by
  have hslice : pySlice aug 1 (seqLen + delay + 1 - delay)
      = (aug.drop (aug.length - delay - seqLen)).take seqLen := by
    have e1 : seqLen + delay + 1 - delay = 1 + seqLen := by omega
    have e2 : aug.length - delay - seqLen = 1 := by omega
    rw [pySlice, e1, List.drop_take, e2]
    congr 1
    omega
  simp only [reward_function_discrete, Bool.not_false, if_true, hslice]
  have hcond : ((specific.getD (seqLen - 1) []).any (fun seq =>
      ((aug.drop (aug.length - delay - seqLen)).take seqLen) == seq.map some)) = true
      ↔ (aug.drop (aug.length - delay - seqLen)).take seqLen ∈
          (specific.getD (seqLen - 1) []).map (fun seq => seq.map some) := by
    rw [List.any_eq_true]
    simp only [beq_iff_eq, List.mem_map]
    constructor
    · rintro ⟨x, hx, hxe⟩
      exact ⟨x, hx, hxe.symm⟩
    · rintro ⟨x, hx, hxe⟩
      exact ⟨x, hx, hxe.symm⟩
  exact if_congr hcond rfl rfl

/-- Witness for C1 at a concrete instance (delay 1, sequence length 2:
the window `[some 1, some 2]` ends one step before the present and is
rewardable, so the pre-noise pre-shift reward is the scale `5`). -/
theorem c1_sparse_reward_delay_law_witness :
    ([none, some 1, some 2, some 7] : List (Option ℕ)).length = 1 + 2 + 1 ∧
    reward_function_discrete false 1 2 5 [[], [[1, 2]]] []
        [none, some 1, some 2, some 7] =
      if (([none, some 1, some 2, some 7] : List (Option ℕ)).drop
            (([none, some 1, some 2, some 7] : List (Option ℕ)).length - 1 - 2)).take 2 ∈
          (([[], [[1, 2]]] : List (List (List ℕ))).getD (2 - 1) []).map
            (fun seq => seq.map some)
      then 5 else 0 :=
  ⟨by decide, c1_sparse_reward_delay_law 1 2 5 [[], [[1, 2]]] []
    [none, some 1, some 2, some 7] (by decide)⟩

/-! ## C5: dense prefix reward -/

/-- C5: with `make_denser = true`, each step's reward is the sum over
prefix lengths `j` of
`count_of(c_j in possible_remaining_sequences[j-1]) · reward_scale · j /
sequence_length`, where `c_j` is the length-`j` suffix of the augmented
state ending `delay` steps before the present; in particular, driving
the single rewardable triple `[0, 1, 2]` (sequence length 3, delay 0,
scale 1) from an off-sequence start yields the partial rewards `1/3`,
`2/3` and then `1`. -/
theorem c5_dense_prefix_reward :
    (∀ (delay seqLen : ℕ) (scale : ℚ) (aug : List (Option ℕ))
        (prs : List (List (List ℕ))),
      dense_reward_on delay seqLen scale aug prs =
        ((List.range seqLen).map (fun j0 =>
          (((prs.getD j0 []).countP (fun p =>
            pySlice aug (seqLen + delay + 1 - (j0 + 1) - delay)
              (seqLen + delay + 1 - delay) == p.map some) : ℕ) : ℚ)
            * scale * (j0 + 1) / seqLen)).sum) ∧
    drive_dense 0 3 1 specificTripleEx 3 [0, 1, 2] = [1 / 3, 2 / 3, 1] := by
  constructor
  · intro delay seqLen scale aug prs
    simp only [dense_reward_on]
    congr 1
    apply List.map_congr_left
    intro j0 _
    simp only [Nat.add_sub_cancel]
    by_cases h : ((prs.getD j0 []).any (fun p =>
        pySlice aug (seqLen + delay + 1 - (j0 + 1) - delay)
          (seqLen + delay + 1 - delay) == p.map some)) = true
    · rw [if_pos h]
      norm_cast
    · rw [if_neg h]
      have h0 : (prs.getD j0 []).countP (fun p =>
          pySlice aug (seqLen + delay + 1 - (j0 + 1) - delay)
            (seqLen + delay + 1 - delay) == p.map some) = 0 := by
        rw [List.countP_eq_zero]
        intro p hp hbeq
        exact h (List.any_eq_true.mpr ⟨p, hp, hbeq⟩)
      rw [h0]
      norm_num
  · norm_num [drive_dense, dense_step, dense_reset, dense_reward_on, rebuild_possible,
      dense_prs_init, pySlice, specificTripleEx, List.range_succ, List.replicate_succ,
      List.countP_cons, List.countP_nil, List.filterMap_cons, List.filterMap_nil,
      List.take_succ_cons]

/-! ## C6: determinism and sub-seed derivation order -/

/-- C6: two engines constructed from identical configurations and
identical seeds (hence identical generator streams) produce identical
trajectories — identical observations, rewards and done flags — and the
derived sub-seeds are drawn from the env RNG in the fixed source order
`relevant_state_space`, `relevant_action_space`,
`irrelevant_state_space`, `irrelevant_action_space`, `state_space`,
`action_space`, `image_representations`. -/
theorem c6_determinism (gen : ℕ → ℕ → ℕ) (cfg : EngCfg) (seed1 seed2 : ℕ)
    (acts : List ℕ) (h : seed1 = seed2) :
    runTrajectory gen cfg seed1 acts = runTrajectory gen cfg seed2 acts ∧
    (mkSeedDict ⟨gen seed1, 0⟩).1 =
      { relevant_state_space := gen seed1 0, relevant_action_space := gen seed1 1,
        irrelevant_state_space := gen seed1 2, irrelevant_action_space := gen seed1 3,
        state_space := gen seed1 4, action_space := gen seed1 5,
        image_representations := gen seed1 6 } := by
  subst h
  exact ⟨rfl, rfl⟩

/-- Witness for C6 at a concrete generator, configuration, seed and
action sequence. -/
theorem c6_determinism_witness :
    (0 = 0) ∧
    (runTrajectory genEx cfgEx 0 [1, 0] = runTrajectory genEx cfgEx 0 [1, 0] ∧
    (mkSeedDict ⟨genEx 0, 0⟩).1 =
      { relevant_state_space := genEx 0 0, relevant_action_space := genEx 0 1,
        irrelevant_state_space := genEx 0 2, irrelevant_action_space := genEx 0 3,
        state_space := genEx 0 4, action_space := genEx 0 5,
        image_representations := genEx 0 6 }) :=
  ⟨rfl, c6_determinism genEx cfgEx 0 0 [1, 0] rfl⟩

/-! ## C7: stepping after episode termination -/

/-- C7 counterexample: in the environment built by
`constructEngine genEx cfgEx 0`, after a step that returns
`done = true`, a further call to `step` does **not** error: it performs
a transition (the transition counter increments and the augmented state
shifts), returning the same terminal state with `done` still `true` —
the source deliberately makes `P(s, a) = s` for terminal states so that
`step` stays meaningful after termination. -/
theorem c7_counterexample :
    constructEngine genEx cfgEx 0 = (engEx, stEx) ∧
    (stepEngine engEx stEx 1).1 = stDoneEx ∧
    stDoneEx.done = true ∧
    (stepEngine engEx stDoneEx 0).1.curr = stDoneEx.curr ∧
    (stepEngine engEx stDoneEx 0).1.total_transitions_episode =
      stDoneEx.total_transitions_episode + 1 ∧
    (stepEngine engEx stDoneEx 0).2.2.2 = true := by
  refine ⟨constructEngine_cfgEx_eval, ?_, ?_, ?_, ?_, ?_⟩ <;> decide

/-- C7 as amended: calling `step` after the episode has terminated does
not error; the step performs an absorbing self-transition: the state is
unchanged, the returned done flag stays `true`, and the transition
counter increments. -/
theorem c7_step_after_termination (eng : Engine) (st : EngState) (a : ℕ)
    (rows : List (List ℕ))
    (htab : eng.table =
      init_transition_function_rel eng.cfg.S eng.cfg.A eng.numTerm rows)
    (hN : eng.numTerm ≤ eng.cfg.S)
    (hterm : is_terminal_state eng.cfg.S eng.numTerm st.curr = true)
    (ha : a < eng.cfg.A) :
    (stepEngine eng st a).1.curr = st.curr ∧
    (stepEngine eng st a).2.2.2 = true ∧
    (stepEngine eng st a).1.total_transitions_episode =
      st.total_transitions_episode + 1 := by
  have hns : lookupT eng.table st.curr a = st.curr := by
    rw [htab]
    obtain ⟨h1, h2⟩ := (is_terminal_state_iff _ _ _ hN).mp hterm
    exact lookupT_terminal_row _ _ _ rows _ _ h1 h2 ha
  simp only [stepEngine, hns, List.getLastD_concat, is_terminal_opt]
  exact ⟨trivial, hterm, trivial⟩

/-- Witness for the amended C7 at a concrete terminated state. -/
theorem c7_step_after_termination_witness :
    (engEx.table = init_transition_function_rel engEx.cfg.S engEx.cfg.A
        engEx.numTerm [[0, 1], [0, 1]] ∧
     engEx.numTerm ≤ engEx.cfg.S ∧
     is_terminal_state engEx.cfg.S engEx.numTerm stDoneEx.curr = true ∧
     0 < engEx.cfg.A) ∧
    ((stepEngine engEx stDoneEx 0).1.curr = stDoneEx.curr ∧
     (stepEngine engEx stDoneEx 0).2.2.2 = true ∧
     (stepEngine engEx stDoneEx 0).1.total_transitions_episode =
       stDoneEx.total_transitions_episode + 1) :=
  ⟨⟨by decide, by decide, by decide, by decide⟩,
    c7_step_after_termination engEx stDoneEx 0 [[0, 1], [0, 1]]
      (by decide) (by decide) (by decide) (by decide)⟩

/-! ## C8: out-of-box actions in continuous environments -/

/-- C8 counterexample: in a continuous environment whose configured
transition noise draws `1`, an action outside the action box does *not*
leave the state unchanged: from state `[0]` the step returns `[1]`,
because the drawn transition noise is added to the state even on the
no-op branch (lines 682-684). -/
theorem c8_counterexample :
    box_contains contCfgEx.action_space_max [2] = false ∧
    (transition_function_cont contCfgEx [[0], [0]] [0] [2] 1).2 = [1] ∧
    ([1] : List ℚ) ≠ [0] := by
  refine ⟨?_, ?_, ?_⟩
  · norm_num [box_contains, contCfgEx]
  · norm_num [transition_function_cont, box_contains, contCfgEx, clip_vec, add_vec,
      scale_vec]
  · norm_num

/-- C8 as amended: in a continuous environment, when the action lies
outside the action box and the drawn transition noise is `0` (in
particular whenever no `transition_noise` is configured), the step is a
no-op: the returned next state equals the current state and the state
derivatives are unchanged. -/
theorem c8_out_of_box_noop (cfg : ContCfg) (derivs : List (List ℚ))
    (state action : List ℚ)
    (hact : box_contains cfg.action_space_max action = false)
    (hst : box_contains cfg.state_space_max state = true)
    (hd : derivs.getD 0 [] = state) (hne : derivs ≠ []) :
    transition_function_cont cfg derivs state action 0 = (derivs, state) := by
  have hmap : state.map (fun x => x + (0 : ℚ)) = state := by simp
  have hset : derivs.set 0 state = derivs := by
    cases derivs with
    | nil => exact absurd rfl hne
    | cons h t =>
        simp only [List.getD_cons_zero] at hd
        rw [List.set_cons_zero, hd]
  simp only [transition_function_cont, hact, Bool.false_eq_true, if_false, hmap, hset,
    hst, if_true]

/-- Witness for the amended C8 at a concrete instance. -/
theorem c8_out_of_box_noop_witness :
    (box_contains contCfgEx.action_space_max [2] = false ∧
     box_contains contCfgEx.state_space_max [3] = true ∧
     ([[3], [0]] : List (List ℚ)).getD 0 [] = [3] ∧
     ([[3], [0]] : List (List ℚ)) ≠ []) ∧
    transition_function_cont contCfgEx [[3], [0]] [3] [2] 0 = ([[3], [0]], [3]) :=
  ⟨⟨by norm_num [box_contains, contCfgEx], by norm_num [box_contains, contCfgEx],
      rfl, by simp⟩,
    c8_out_of_box_noop contCfgEx [[3], [0]] [3] [2]
      (by norm_num [box_contains, contCfgEx]) (by norm_num [box_contains, contCfgEx])
      rfl (by simp)⟩
